import Mathlib

/-!
Verification of the MNSTR gacha dashboard's Distribution Analytics Engine.

The engine is the trio `probabilityScale` / `computeMetrics` /
`buildProfitCurve` from the dashboard's front-end module (duplicated
near-verbatim in the CLI script).  JavaScript numbers are modelled by exact
rationals `ℚ`; the spots where IEEE-754 semantics are observable (division by
zero producing `Infinity`/`NaN`) are modelled separately by the `JSNum` type,
so that the non-finite escapes the real code performs can be stated exactly.
JS arrays are immutable lists here; the in-place `sort` on a spread copy is
additionally modelled by an explicit array store (`ArrayStore`) to state the
frame property that callers' arrays are not mutated.
-/

/-- One chase card: appraised fair-market value and raw probability weight.
Display metadata (title, year, set, grading, image) is ignored by the engine
and omitted. `Number(...)` coercions in the source are identities here. -/
structure Card where
  fmv : ℚ
  probability : ℚ
deriving DecidableEq, Repr

/-- Model of `Math.abs` on (finite) JS numbers. -/
def jsAbs (q : ℚ) : ℚ := if q < 0 then -q else q

/-- Model of `Math.max` on (finite) JS numbers. -/
def jsMax (a b : ℚ) : ℚ := if a < b then b else a

/-- Result of a JS arithmetic operation that may leave the finite range:
a finite rational, `Infinity`, `-Infinity`, or `NaN`. -/
inductive JSNum where
  | fin (q : ℚ)
  | inf
  | negInf
  | nan
deriving DecidableEq, Repr

/-- JS division `a / b` on finite operands (`+0` for the zero denominator):
`0/0 = NaN`, `a/0 = ±Infinity` by the sign of `a`, otherwise exact. -/
def jsDiv (a b : ℚ) : JSNum :=
  if b = 0 then
    if a = 0 then JSNum.nan
    else if 0 < a then JSNum.inf
    else JSNum.negInf
  else JSNum.fin (a / b)

/-- Source: `cards.reduce((sum, card) => sum + Number(card.probability), 0)` —
the raw probability sum the normalizer inspects. -/
def rawProbSum (cards : List Card) : ℚ :=
  cards.foldl (fun sum card => sum + card.probability) 0

/-- Source: `probabilityScale` (front-end module, lines 11–16): resolve the
encoding of the raw probability values.  `1e-6` and `1e-2` are the exact
rationals `1/1000000` and `1/100`.  Rational division makes `1 / 0 = 0`;
the JS behaviour at `rawSum = 0` is captured by `probabilityScaleJS`. -/
def probabilityScale (cards : List Card) : ℚ :=
  if jsAbs (rawProbSum cards - 1) < 1/1000000 then 1
  else if jsAbs (rawProbSum cards - 100) < 1/100 then 1/100
  else 1 / rawProbSum cards

/-- The same normalizer with the final `1 / rawSum` given JS division
semantics, so the non-finite result at `rawSum = 0` is observable. -/
def probabilityScaleJS (cards : List Card) : JSNum :=
  if jsAbs (rawProbSum cards - 1) < 1/1000000 then JSNum.fin 1
  else if jsAbs (rawProbSum cards - 100) < 1/100 then JSNum.fin (1/100)
  else jsDiv 1 (rawProbSum cards)

/-- Comparator `(a, b) => Number(a.fmv) - Number(b.fmv)`: ascending fmv. -/
def fmvLe (a b : Card) : Prop := a.fmv ≤ b.fmv

instance : DecidableRel fmvLe := fun a b => inferInstanceAs (Decidable (a.fmv ≤ b.fmv))

/-- Model of the spread `[...cards]`: a fresh array with the same elements. -/
def spreadCopy (cards : List Card) : List Card := cards

/-- Model of `Array.prototype.sort` with the ascending-fmv comparator.
ECMAScript sort is stable, as is insertion sort. -/
def sortInPlace (arr : List Card) : List Card := List.insertionSort fmvLe arr

/-- Source: `[...cards].sort((a, b) => Number(a.fmv) - Number(b.fmv))`. -/
def sortByFmv (cards : List Card) : List Card := sortInPlace (spreadCopy cards)

/-- Source: the weighted-median loop of `computeMetrics` (lines 29–37):
accumulate `probability * scale` over the sorted cards, return the first
`fmv` whose running total reaches `0.5`; `medianValue` stays `0` when the
loop finishes without crossing. -/
def medianWalk (scale : ℚ) : ℚ → List Card → ℚ
  | _, [] => 0
  | cumulative, card :: rest =>
    if 1/2 ≤ cumulative + card.probability * scale then card.fmv
    else medianWalk scale (cumulative + card.probability * scale) rest

/-- Result record of `computeMetrics`. -/
structure Metrics where
  expectedValue : ℚ
  medianValue : ℚ
  oddsOverCost : ℚ
  costOfPack : ℚ
  profit : ℚ
  evPercent : ℚ
  profitPercent : ℚ
  medianPercent : ℚ
  probScale : ℚ
deriving DecidableEq, Repr

/-- Source: `computeMetrics(cards, priceUsd)` (front-end module, lines
18–62).  The ratio fields use total rational division (`x / 0 = 0`); the
JS non-finite behaviour at `costOfPack = 0` is stated via `jsDiv` where a
claim needs it. -/
def computeMetrics (cards : List Card) (priceUsd : ℚ) : Metrics :=
  let costOfPack := priceUsd
  let scale := probabilityScale cards
  let expectedValue :=
    cards.foldl (fun sum card => sum + card.probability * scale * card.fmv) 0
  let sorted := sortByFmv cards
  let medianValue := medianWalk scale 0 sorted
  let oddsOverCost :=
    (cards.foldl
      (fun sum card =>
        if costOfPack ≤ card.fmv then sum + card.probability * scale else sum) 0) * 100
  let profit := expectedValue - costOfPack
  let evPercent := expectedValue / costOfPack * 100
  let profitPercent := profit / costOfPack * 100
  let medianPercent := (medianValue - costOfPack) / costOfPack * 100
  { expectedValue := expectedValue
    medianValue := medianValue
    oddsOverCost := oddsOverCost
    costOfPack := costOfPack
    profit := profit
    evPercent := evPercent
    profitPercent := profitPercent
    medianPercent := medianPercent
    probScale := scale }

/-- One point of the tail/survival curve. -/
structure CurvePoint where
  x : ℚ
  y : ℚ
  profitPct : ℚ
deriving DecidableEq, Repr

/-- Source: the `sorted.map(...)` body of `buildProfitCurve` (lines 67–73),
with the mutable `tailProb` threaded as an accumulator: emit the point for
the current card, then decrement `tailProb` by the card's scaled mass. -/
def curveWalk (priceUsd scale : ℚ) : ℚ → List Card → List CurvePoint
  | _, [] => []
  | tailProb, card :: rest =>
    { x := jsMax card.fmv (1/100)
      y := tailProb * 100
      profitPct := (jsMax card.fmv (1/100) - priceUsd) / priceUsd * 100 } ::
    curveWalk priceUsd scale (tailProb - card.probability * scale) rest

/-- Source: `buildProfitCurve(cards, priceUsd, scale)` (lines 64–74). -/
def buildProfitCurve (cards : List Card) (priceUsd scale : ℚ) : List CurvePoint :=
  let sorted := sortByFmv cards
  let tailProb := sorted.foldl (fun sum card => sum + card.probability * scale) 0
  curveWalk priceUsd scale tailProb sorted

/-! Explicit mutable-array model, used only to state the frame property:
JS arrays live in a store addressed by handles, `[...cards]` allocates a
fresh handle, and `sort` mutates the array behind a single handle. -/

/-- A heap of JS arrays: contents per handle, plus the next fresh handle.
Valid handles are those below `nextId`. -/
structure ArrayStore where
  contents : Nat → List Card
  nextId : Nat

/-- Read the array behind a handle. -/
def readArr (st : ArrayStore) (a : Nat) : List Card := st.contents a

/-- Allocate a fresh array holding `l`. -/
def alloc (st : ArrayStore) (l : List Card) : Nat × ArrayStore :=
  (st.nextId,
   { contents := fun j => if j = st.nextId then l else st.contents j
     nextId := st.nextId + 1 })

/-- In-place `sort` with the ascending-fmv comparator on the array behind
handle `a`: mutates exactly that array. -/
def sortAt (st : ArrayStore) (a : Nat) : ArrayStore :=
  { contents := fun j => if j = a then sortInPlace (st.contents a) else st.contents j
    nextId := st.nextId }

/-- Source: `[...cards].sort((a, b) => Number(a.fmv) - Number(b.fmv))` in the
store model — allocate the spread copy, then sort it in place.  Returns the
handle of the copy and the store after the mutation. -/
def spreadSortByFmv (st : ArrayStore) (a : Nat) : Nat × ArrayStore :=
  let res := alloc st (readArr st a)
  (res.1, sortAt res.2 res.1)

/-- Store-level `computeMetrics`: the caller's array is handle `a`; the body
reads it, sorts a spread copy inside the store, and returns the metrics with
the post-call store. -/
def computeMetricsStore (st : ArrayStore) (a : Nat) (priceUsd : ℚ) :
    Metrics × ArrayStore :=
  let cards := readArr st a
  let costOfPack := priceUsd
  let scale := probabilityScale cards
  let expectedValue :=
    cards.foldl (fun sum card => sum + card.probability * scale * card.fmv) 0
  let res := spreadSortByFmv st a
  let sorted := readArr res.2 res.1
  let medianValue := medianWalk scale 0 sorted
  let oddsOverCost :=
    (cards.foldl
      (fun sum card =>
        if costOfPack ≤ card.fmv then sum + card.probability * scale else sum) 0) * 100
  ({ expectedValue := expectedValue
     medianValue := medianValue
     oddsOverCost := oddsOverCost
     costOfPack := costOfPack
     profit := expectedValue - costOfPack
     evPercent := expectedValue / costOfPack * 100
     profitPercent := (expectedValue - costOfPack) / costOfPack * 100
     medianPercent := (medianValue - costOfPack) / costOfPack * 100
     probScale := scale }, res.2)

/-- Store-level `buildProfitCurve`. -/
def buildProfitCurveStore (st : ArrayStore) (a : Nat) (priceUsd scale : ℚ) :
    List CurvePoint × ArrayStore :=
  let res := spreadSortByFmv st a
  let sorted := readArr res.2 res.1
  let tailProb := sorted.foldl (fun sum card => sum + card.probability * scale) 0
  (curveWalk priceUsd scale tailProb sorted, res.2)

/-! Spec-side vocabulary used to state the claims. -/

/-- Total scaled probability mass of a card list: `Σ probability_i * scale`. -/
def scaledMass (scale : ℚ) (l : List Card) : ℚ :=
  (l.map (fun card => card.probability * scale)).sum

/-- Running total of scaled probability over the first `k` cards of `l`. -/
def cumProb (scale : ℚ) (l : List Card) (k : ℕ) : ℚ :=
  scaledMass scale (l.take k)

/-! General lemmas about the embedded operations. -/

theorem foldl_add_eq (f : Card → ℚ) :
    ∀ (l : List Card) (a : ℚ),
      List.foldl (fun s c => s + f c) a l = a + (l.map f).sum := by
  intro l
  induction l with
  | nil => intro a; simp
  | cons c t ih => intro a; simp [List.foldl_cons, ih (a + f c), add_assoc]

theorem foldl_if_add (P : Card → Prop) [DecidablePred P] (f : Card → ℚ) :
    ∀ (l : List Card) (a : ℚ),
      List.foldl (fun s c => if P c then s + f c else s) a l
        = a + (l.map (fun c => if P c then f c else 0)).sum := by
  intro l
  induction l with
  | nil => intro a; simp
  | cons c t ih => intro a; by_cases h : P c <;> simp [h, ih, add_assoc]

theorem rawProbSum_eq (l : List Card) :
    rawProbSum l = (l.map (fun c => c.probability)).sum := by
  simp [rawProbSum, foldl_add_eq]

theorem rawProbSum_nonneg {l : List Card} (hp : ∀ c ∈ l, 0 ≤ c.probability) :
    0 ≤ rawProbSum l := by
  rw [rawProbSum_eq]
  refine List.sum_nonneg ?_
  intro x hx
  obtain ⟨c, hc, rfl⟩ := List.mem_map.mp hx
  exact hp c hc

theorem probabilityScale_nonneg {cards : List Card}
    (hp : ∀ c ∈ cards, 0 ≤ c.probability) : 0 ≤ probabilityScale cards := by
  unfold probabilityScale
  split_ifs with h1 h2
  · norm_num
  · norm_num
  · exact one_div_nonneg.mpr (rawProbSum_nonneg hp)

theorem scaledMass_nil (s : ℚ) : scaledMass s [] = 0 := rfl

theorem scaledMass_cons (s : ℚ) (c : Card) (l : List Card) :
    scaledMass s (c :: l) = c.probability * s + scaledMass s l := by
  simp [scaledMass]

theorem scaledMass_append (s : ℚ) (l₁ l₂ : List Card) :
    scaledMass s (l₁ ++ l₂) = scaledMass s l₁ + scaledMass s l₂ := by
  simp [scaledMass]

theorem scaledMass_nonneg {s : ℚ} {l : List Card} (hs : 0 ≤ s)
    (hp : ∀ c ∈ l, 0 ≤ c.probability) : 0 ≤ scaledMass s l := by
  refine List.sum_nonneg ?_
  intro x hx
  obtain ⟨c, hc, rfl⟩ := List.mem_map.mp hx
  exact mul_nonneg (hp c hc) hs

theorem scaledMass_perm (s : ℚ) {l₁ l₂ : List Card} (h : l₁.Perm l₂) :
    scaledMass s l₁ = scaledMass s l₂ :=
  (h.map _).sum_eq

theorem scaledMass_take_succ (s : ℚ) (l : List Card) (i : ℕ) (hi : i < l.length) :
    scaledMass s (l.take (i+1))
      = scaledMass s (l.take i) + (l.get ⟨i, hi⟩).probability * s := by
  have h1 : l.take (i+1) = l.take i ++ [l.get ⟨i, hi⟩] := by
    rw [List.take_succ, List.getElem?_eq_getElem hi]
    simp [List.get_eq_getElem]
  rw [h1, scaledMass_append]
  simp [scaledMass]

instance : IsTotal Card fmvLe := ⟨fun a b => le_total a.fmv b.fmv⟩

instance : IsTrans Card fmvLe := ⟨fun _ _ _ h1 h2 => le_trans h1 h2⟩

theorem sortByFmv_perm (cards : List Card) : (sortByFmv cards).Perm cards :=
  List.perm_insertionSort _ _

theorem sortByFmv_sorted (cards : List Card) : List.Sorted fmvLe (sortByFmv cards) :=
  List.sorted_insertionSort _ _

theorem computeMetrics_medianValue (cards : List Card) (priceUsd : ℚ) :
    (computeMetrics cards priceUsd).medianValue
      = medianWalk (probabilityScale cards) 0 (sortByFmv cards) := rfl

theorem computeMetrics_expectedValue (cards : List Card) (priceUsd : ℚ) :
    (computeMetrics cards priceUsd).expectedValue
      = (cards.map (fun c => c.probability * probabilityScale cards * c.fmv)).sum := by
  simp [computeMetrics, foldl_add_eq]

theorem computeMetrics_oddsOverCost (cards : List Card) (priceUsd : ℚ) :
    (computeMetrics cards priceUsd).oddsOverCost
      = (cards.map (fun c =>
            if priceUsd ≤ c.fmv then c.probability * probabilityScale cards else 0)).sum
          * 100 := by
  simp [computeMetrics, foldl_if_add]

theorem medianWalk_no_cross (s : ℚ) :
    ∀ (l : List Card) (acc : ℚ),
      (∀ i (_ : i < l.length), acc + scaledMass s (l.take (i+1)) < 1/2) →
      medianWalk s acc l = 0 := by
  intro l
  induction l with
  | nil => intro acc _; rfl
  | cons c rest ih =>
    intro acc h
    have h0 := h 0 (by simp)
    rw [show (c :: rest).take 1 = [c] from rfl] at h0
    rw [scaledMass_cons, scaledMass_nil] at h0
    rw [medianWalk, if_neg (by linarith)]
    refine ih (acc + c.probability * s) ?_
    intro i hi
    have hs := h (i+1) (by simpa using Nat.succ_lt_succ hi)
    rw [List.take_succ_cons, scaledMass_cons] at hs
    linarith

theorem medianWalk_cross (s : ℚ) :
    ∀ (l : List Card) (acc : ℚ) (i : ℕ) (hi : i < l.length),
      1/2 ≤ acc + scaledMass s (l.take (i+1)) →
      (∀ j, j < i → acc + scaledMass s (l.take (j+1)) < 1/2) →
      medianWalk s acc l = (l.get ⟨i, hi⟩).fmv := by
  intro l
  induction l with
  | nil => intro acc i hi; exact absurd hi (by simp)
  | cons c rest ih =>
    intro acc i hi hcross hbefore
    cases i with
    | zero =>
      rw [show (c :: rest).take 1 = [c] from rfl, scaledMass_cons, scaledMass_nil] at hcross
      rw [medianWalk, if_pos (by linarith)]
      rfl
    | succ j =>
      have hb0 := hbefore 0 (Nat.succ_pos j)
      rw [show (c :: rest).take 1 = [c] from rfl, scaledMass_cons, scaledMass_nil] at hb0
      rw [medianWalk, if_neg (by linarith)]
      have hj : j < rest.length := Nat.lt_of_succ_lt_succ hi
      have hcross' : 1/2 ≤ (acc + c.probability * s) + scaledMass s (rest.take (j+1)) := by
        rw [List.take_succ_cons, scaledMass_cons] at hcross
        linarith
      have hbefore' : ∀ k, k < j →
          (acc + c.probability * s) + scaledMass s (rest.take (k+1)) < 1/2 := by
        intro k hk
        have := hbefore (k+1) (Nat.succ_lt_succ hk)
        rw [List.take_succ_cons, scaledMass_cons] at this
        linarith
      rw [ih (acc + c.probability * s) j hj hcross' hbefore']
      rfl

theorem curveWalk_length (priceUsd s : ℚ) :
    ∀ (l : List Card) (t : ℚ), (curveWalk priceUsd s t l).length = l.length := by
  intro l
  induction l with
  | nil => intro t; rfl
  | cons c rest ih => intro t; simp [curveWalk, ih]

theorem curveWalk_head_y (priceUsd s : ℚ) (l : List Card) (t : ℚ) :
    ∀ pt, (curveWalk priceUsd s t l).head? = some pt → pt.y = t * 100 := by
  intro pt h
  cases l with
  | nil => simp [curveWalk] at h
  | cons c rest =>
    rw [curveWalk] at h
    rw [List.head?_cons] at h
    rw [← Option.some.inj h]

theorem curveWalk_chain (priceUsd s : ℚ) (hs : 0 ≤ s) :
    ∀ (l : List Card) (t : ℚ), (∀ c ∈ l, 0 ≤ c.probability) →
      List.Chain' (fun a b => b.y ≤ a.y) (curveWalk priceUsd s t l) := by
  intro l
  induction l with
  | nil => intro t _; simp [curveWalk]
  | cons c rest ih =>
    intro t h
    rw [curveWalk]
    refine List.chain'_cons'.mpr ⟨?_, ih _ (fun d hd => h d (List.mem_cons_of_mem _ hd))⟩
    intro b hb
    have hy := curveWalk_head_y priceUsd s rest (t - c.probability * s) b hb
    have hcp : 0 ≤ c.probability * s :=
      mul_nonneg (h c (List.mem_cons_self _ _)) hs
    simp only [hy]
    nlinarith

theorem curveWalk_getLast_y (priceUsd s : ℚ) :
    ∀ (l : List Card) (t : ℚ) (pt : CurvePoint),
      (curveWalk priceUsd s t l).getLast? = some pt →
      pt.y = (t - scaledMass s l.dropLast) * 100 := by
  intro l
  induction l with
  | nil => intro t pt h; simp [curveWalk] at h
  | cons c rest ih =>
    intro t pt h
    cases rest with
    | nil =>
      rw [curveWalk, curveWalk] at h
      rw [List.getLast?_singleton] at h
      rw [← Option.some.inj h]
      simp [scaledMass_nil]
    | cons d rest' =>
      rw [curveWalk, curveWalk] at h
      rw [List.getLast?_cons_cons] at h
      rw [← curveWalk] at h
      have := ih (t - c.probability * s) pt h
      rw [this, List.dropLast_cons₂, scaledMass_cons]
      ring

theorem curveWalk_map_x_profit (priceUsd s : ℚ) :
    ∀ (l : List Card) (t : ℚ),
      (curveWalk priceUsd s t l).map (fun pt => (pt.x, pt.profitPct))
        = l.map (fun c =>
            (jsMax c.fmv (1/100), (jsMax c.fmv (1/100) - priceUsd) / priceUsd * 100)) := by
  intro l
  induction l with
  | nil => intro t; rfl
  | cons c rest ih => intro t; simp [curveWalk, ih]

theorem buildProfitCurve_eq (cards : List Card) (priceUsd s : ℚ) :
    buildProfitCurve cards priceUsd s
      = curveWalk priceUsd s (scaledMass s (sortByFmv cards)) (sortByFmv cards) := by
  simp [buildProfitCurve, foldl_add_eq, scaledMass]

theorem jsAbs_eq_abs (q : ℚ) : jsAbs q = |q| := by
  by_cases h : q < 0
  · rw [jsAbs, if_pos h, abs_of_neg h]
  · rw [jsAbs, if_neg h, abs_of_nonneg (le_of_not_lt h)]

/-- C1: the probability normalizer, applied to the raw probability values of
any distribution, returns scale 1 when `|rawSum - 1| < 1e-6`; otherwise
`0.01` when `|rawSum - 100| < 1e-2`; otherwise `1/rawSum` — branches tried
in exactly that order, first match wins. -/
theorem C1_normalizer_branches (cards : List Card) :
    (|rawProbSum cards - 1| < 1/1000000 → probabilityScale cards = 1) ∧
    (¬ |rawProbSum cards - 1| < 1/1000000 → |rawProbSum cards - 100| < 1/100 →
      probabilityScale cards = 1/100) ∧
    (¬ |rawProbSum cards - 1| < 1/1000000 → ¬ |rawProbSum cards - 100| < 1/100 →
      probabilityScale cards = 1 / rawProbSum cards) := by
  unfold probabilityScale
  rw [jsAbs_eq_abs, jsAbs_eq_abs]
  refine ⟨fun h1 => if_pos h1, fun h1 h2 => ?_, fun h1 h2 => ?_⟩
  · rw [if_neg h1, if_pos h2]
  · rw [if_neg h1, if_neg h2]

/-- Witness for C1 at probabilities `[5, 3, 2]` (raw sum 10, third branch). -/
theorem C1_normalizer_branches_witness :
    probabilityScale [⟨1, 5⟩, ⟨2, 3⟩, ⟨3, 2⟩] = 1/10 := by
  have hsum : rawProbSum [⟨1, 5⟩, ⟨2, 3⟩, ⟨3, 2⟩] = 10 := by norm_num [rawProbSum]
  have h := (C1_normalizer_branches [⟨1, 5⟩, ⟨2, 3⟩, ⟨3, 2⟩]).2.2
    (by rw [hsum]; rw [abs_of_pos (by norm_num)]; norm_num)
    (by rw [hsum]; rw [abs_of_neg (by norm_num)]; norm_num)
  rw [h, hsum]

/-- C2: on the all-zero distribution the normalizer does not report a typed
`DegenerateDistribution` failure; it evaluates `1 / 0`, i.e. JS `Infinity`,
which flows on into the metrics.  The claim (and spec §7) mandates a typed
failure, so this is a code bug, exhibited at the failing input. -/
theorem C2_degenerate_not_typed_error :
    rawProbSum [⟨5, 0⟩] = 0 ∧ probabilityScaleJS [⟨5, 0⟩] = JSNum.inf := by
  norm_num [rawProbSum, probabilityScaleJS, jsAbs, jsDiv]

/-- C4 counterexample: for the card `{fmv: 0, probability: 1}` at price 1 the
emitted `profitPct` is `-99` — computed from the floored `x = max(fmv, 0.01)`
— whereas the claim's raw-fmv formula gives `-100`. -/
theorem C4_profitPct_counterexample :
    (buildProfitCurve [⟨0, 1⟩] 1 (probabilityScale [⟨0, 1⟩])).map CurvePoint.profitPct
        = [-99] ∧
    ((0:ℚ) - 1) / 1 * 100 = -100 ∧ ((-99:ℚ) ≠ -100) := by
  norm_num [buildProfitCurve, probabilityScale, rawProbSum, jsAbs, sortByFmv,
    sortInPlace, spreadCopy, List.insertionSort, List.orderedInsert, fmvLe,
    curveWalk, jsMax]

/-- C4 amended: every curve point has `x = max(fmv, 0.01)` and
`profitPct = (max(fmv, 0.01) - priceUsd) / priceUsd * 100` — both computed
from the floored value (they agree with the raw-fmv formula iff
`fmv ≥ 0.01`). -/
theorem C4_profitPct_floored (cards : List Card) (priceUsd scale : ℚ)
    (hprice : 0 < priceUsd) :
    (buildProfitCurve cards priceUsd scale).map (fun pt => (pt.x, pt.profitPct))
      = (sortByFmv cards).map (fun c =>
          (jsMax c.fmv (1/100), (jsMax c.fmv (1/100) - priceUsd) / priceUsd * 100)) := by
  rw [buildProfitCurve_eq]
  exact curveWalk_map_x_profit priceUsd scale (sortByFmv cards) _

/-- Witness for the amended C4 at a single card with fmv 1, price 5. -/
theorem C4_profitPct_floored_witness :
    (buildProfitCurve [⟨1, 1/2⟩] 5 1).map (fun pt => (pt.x, pt.profitPct))
      = (sortByFmv [⟨1, 1/2⟩]).map (fun c =>
          (jsMax c.fmv (1/100), (jsMax c.fmv (1/100) - 5) / 5 * 100)) :=
  C4_profitPct_floored [⟨1, 1/2⟩] 5 1 (by norm_num)

/-- C8: `computeMetrics` performs no price validation: at `priceUsd = 0` it
still computes every metric (here `expectedValue = 1`, `costOfPack = 0`),
and the `evPercent` division `expectedValue / costOfPack` is JS `Infinity`
rather than a typed `InvalidPrice` rejection. -/
theorem C8_invalid_price_not_rejected :
    (computeMetrics [⟨1, 1⟩] 0).expectedValue = 1 ∧
    (computeMetrics [⟨1, 1⟩] 0).costOfPack = 0 ∧
    jsDiv (computeMetrics [⟨1, 1⟩] 0).expectedValue
        (computeMetrics [⟨1, 1⟩] 0).costOfPack = JSNum.inf := by
  norm_num [computeMetrics, probabilityScale, rawProbSum, jsAbs, jsDiv]

/-- C10: on the empty card list every reduction returns its identity
element — `expectedValue = 0`, `medianValue = 0`, `oddsOverCost = 0` — even
though the probability scale computed for the empty list is JS `Infinity`
(`rawSum = 0` falls to the `1 / rawSum` branch). -/
theorem C10_empty_metrics (priceUsd : ℚ) (hprice : 0 < priceUsd) :
    (computeMetrics [] priceUsd).expectedValue = 0 ∧
    (computeMetrics [] priceUsd).medianValue = 0 ∧
    (computeMetrics [] priceUsd).oddsOverCost = 0 ∧
    probabilityScaleJS [] = JSNum.inf := by
  norm_num [computeMetrics, medianWalk, sortByFmv, sortInPlace, spreadCopy,
    List.insertionSort, probabilityScaleJS, rawProbSum, jsAbs, jsDiv]

/-- Witness for C10 at price 5. -/
theorem C10_empty_metrics_witness :
    (computeMetrics [] 5).expectedValue = 0 ∧
    (computeMetrics [] 5).medianValue = 0 ∧
    (computeMetrics [] 5).oddsOverCost = 0 ∧
    probabilityScaleJS [] = JSNum.inf :=
  C10_empty_metrics 5 (by norm_num)

theorem sum_map_mul_const (f : Card → ℚ) (r : ℚ) :
    ∀ l : List Card, (l.map (fun c => f c * r)).sum = (l.map f).sum * r := by
  intro l
  induction l with
  | nil => simp
  | cons c t ih => simp [ih]; ring

/-- C3: the weighted median equals the fmv of the first card, in the
ascending-fmv sorted order, whose running total of scaled probability
reaches 0.5; when no running total reaches 0.5 the median is 0. -/
theorem C3_weighted_median (cards : List Card) (priceUsd : ℚ) :
    ((∀ i (_ : i < (sortByFmv cards).length),
        cumProb (probabilityScale cards) (sortByFmv cards) (i+1) < 1/2) →
      (computeMetrics cards priceUsd).medianValue = 0) ∧
    (∀ i (hi : i < (sortByFmv cards).length),
      1/2 ≤ cumProb (probabilityScale cards) (sortByFmv cards) (i+1) →
      (∀ j, j < i → cumProb (probabilityScale cards) (sortByFmv cards) (j+1) < 1/2) →
      (computeMetrics cards priceUsd).medianValue
        = ((sortByFmv cards).get ⟨i, hi⟩).fmv) := by
  constructor
  · intro h
    rw [computeMetrics_medianValue]
    refine medianWalk_no_cross _ _ 0 ?_
    intro i hi
    have := h i hi
    rw [cumProb] at this
    linarith
  · intro i hi hcross hbefore
    rw [computeMetrics_medianValue]
    refine medianWalk_cross _ _ 0 i hi ?_ ?_
    · rw [cumProb] at hcross; linarith
    · intro j hj
      have := hbefore j hj
      rw [cumProb] at this
      linarith

/-- Witness for C3 on the spec scenario: the running total reaches 0.5 at
the first sorted card, so the median is its fmv, 1. -/
theorem C3_weighted_median_witness :
    (computeMetrics [⟨1, 1/2⟩, ⟨10, 3/10⟩, ⟨100, 1/5⟩] 5).medianValue = 1 := by
  have hsort : sortByFmv [⟨1, 1/2⟩, ⟨10, 3/10⟩, ⟨100, 1/5⟩]
      = [⟨1, 1/2⟩, ⟨10, 3/10⟩, ⟨100, 1/5⟩] := by
    norm_num [sortByFmv, sortInPlace, spreadCopy, List.insertionSort,
      List.orderedInsert, fmvLe]
  have key : ∀ (L : List Card), L = [⟨1, 1/2⟩, ⟨10, 3/10⟩, ⟨100, 1/5⟩] →
      ∀ (hh : 0 < L.length), (L.get ⟨0, hh⟩).fmv = 1 := by
    intro L hL
    subst hL
    intro hh
    rfl
  have h := (C3_weighted_median [⟨1, 1/2⟩, ⟨10, 3/10⟩, ⟨100, 1/5⟩] 5).2 0
    (by rw [hsort]; norm_num)
    (by rw [cumProb, hsort]
        norm_num [scaledMass, probabilityScale, rawProbSum, jsAbs])
    (fun j hj => absurd hj (Nat.not_lt_zero j))
  rw [h]
  exact key _ hsort _

/-- C5: with the scale resolved by the normalizer and non-negative raw
probabilities, the tail curve's y sequence is non-increasing, its first y is
100 times the total scaled probability mass, and its last y is exactly the
last sorted card's own scaled probability times 100. -/
theorem C5_tail_curve_shape (cards : List Card) (priceUsd : ℚ)
    (hp : ∀ c ∈ cards, 0 ≤ c.probability) :
    List.Chain' (fun a b => b.y ≤ a.y)
      (buildProfitCurve cards priceUsd (probabilityScale cards)) ∧
    (∀ pt, (buildProfitCurve cards priceUsd (probabilityScale cards)).head? = some pt →
      pt.y = 100 * scaledMass (probabilityScale cards) cards) ∧
    (∀ pt c,
      (buildProfitCurve cards priceUsd (probabilityScale cards)).getLast? = some pt →
      (sortByFmv cards).getLast? = some c →
      pt.y = c.probability * probabilityScale cards * 100) := by
  have hs : 0 ≤ probabilityScale cards := probabilityScale_nonneg hp
  have hmem : ∀ c ∈ sortByFmv cards, 0 ≤ c.probability := fun c hc =>
    hp c ((sortByFmv_perm cards).mem_iff.mp hc)
  have hmass : scaledMass (probabilityScale cards) (sortByFmv cards)
      = scaledMass (probabilityScale cards) cards :=
    scaledMass_perm _ (sortByFmv_perm cards)
  rw [buildProfitCurve_eq]
  refine ⟨curveWalk_chain _ _ hs _ _ hmem, ?_, ?_⟩
  · intro pt hpt
    have hy := curveWalk_head_y _ _ _ _ pt hpt
    rw [hy, hmass]
    ring
  · intro pt c hpt hc
    have hy := curveWalk_getLast_y _ _ _ _ pt hpt
    have hne : sortByFmv cards ≠ [] := by
      intro h0
      rw [h0] at hc
      simp at hc
    have hlast : (sortByFmv cards).getLast hne = c := by
      rw [List.getLast?_eq_getLast _ hne] at hc
      exact Option.some.inj hc
    have hsplit : scaledMass (probabilityScale cards) (sortByFmv cards)
        = scaledMass (probabilityScale cards) (sortByFmv cards).dropLast
          + c.probability * probabilityScale cards := by
      conv_lhs => rw [← List.dropLast_append_getLast hne]
      rw [scaledMass_append, hlast]
      simp [scaledMass]
    rw [hy, hsplit]
    ring

/-- Witness for C5: the two-card distribution `[{1, 1/2}, {10, 1/2}]`. -/
theorem C5_tail_curve_shape_witness :
    List.Chain' (fun a b => b.y ≤ a.y)
      (buildProfitCurve [⟨1, 1/2⟩, ⟨10, 1/2⟩] 5
        (probabilityScale [⟨1, 1/2⟩, ⟨10, 1/2⟩])) :=
  (C5_tail_curve_shape [⟨1, 1/2⟩, ⟨10, 1/2⟩] 5
    (by norm_num [List.forall_mem_cons])).1

/-- C6: when the scaled probabilities are non-negative and sum to 1, the
oddsOverCost metric lies in [0, 100]. -/
theorem C6_odds_bounded (cards : List Card) (priceUsd : ℚ)
    (hp : ∀ c ∈ cards, 0 ≤ c.probability)
    (hsum : scaledMass (probabilityScale cards) cards = 1) :
    0 ≤ (computeMetrics cards priceUsd).oddsOverCost ∧
    (computeMetrics cards priceUsd).oddsOverCost ≤ 100 := by
  have hs : 0 ≤ probabilityScale cards := probabilityScale_nonneg hp
  have hnn : 0 ≤ (cards.map (fun c =>
      if priceUsd ≤ c.fmv then c.probability * probabilityScale cards else 0)).sum := by
    refine List.sum_nonneg ?_
    intro x hx
    obtain ⟨c, hc, rfl⟩ := List.mem_map.mp hx
    by_cases hcase : priceUsd ≤ c.fmv
    · rw [if_pos hcase]
      exact mul_nonneg (hp c hc) hs
    · rw [if_neg hcase]
  have hub : (cards.map (fun c =>
      if priceUsd ≤ c.fmv then c.probability * probabilityScale cards else 0)).sum ≤ 1 := by
    rw [← hsum]
    refine List.sum_le_sum ?_
    intro c hc
    by_cases hcase : priceUsd ≤ c.fmv
    · rw [if_pos hcase]
    · rw [if_neg hcase]
      exact mul_nonneg (hp c hc) hs
  constructor
  · rw [computeMetrics_oddsOverCost]
    nlinarith
  · rw [computeMetrics_oddsOverCost]
    nlinarith

/-- Witness for C6 on the spec scenario (`oddsOverCost = 50`). -/
theorem C6_odds_bounded_witness :
    0 ≤ (computeMetrics [⟨1, 1/2⟩, ⟨10, 3/10⟩, ⟨100, 1/5⟩] 5).oddsOverCost ∧
    (computeMetrics [⟨1, 1/2⟩, ⟨10, 3/10⟩, ⟨100, 1/5⟩] 5).oddsOverCost ≤ 100 :=
  C6_odds_bounded _ 5 (by norm_num [List.forall_mem_cons])
    (by norm_num [scaledMass, probabilityScale, rawProbSum, jsAbs])

/-- C7 counterexample: the single card `{fmv: 2000000, probability:
1 + 1/2000000}` passes the `|rawSum - 1| < 1e-6` test, so scale is 1 and the
expected value 2000001 exceeds the maximum fmv 2000000. -/
theorem C7_ev_bound_counterexample :
    (computeMetrics [⟨2000000, 1 + 1/2000000⟩] 5).expectedValue = 2000001 ∧
    ([⟨2000000, 1 + 1/2000000⟩] : List Card).map Card.fmv = [2000000] ∧
    ¬ ((2000001:ℚ) ≤ 2000000) := by
  norm_num [computeMetrics, probabilityScale, rawProbSum, jsAbs]

/-- C7 amended: the expected value lies between `W * lo` and `W * hi` for
any bounds `lo ≤ fmv ≤ hi` over the distribution — in particular between
`W * min fmv` and `W * max fmv` — where `W` is the total scaled probability
mass; the original min/max bounds hold exactly when `W = 1`, which the two
tolerance branches of the normalizer do not guarantee. -/
theorem C7_ev_bound_amended (cards : List Card) (priceUsd lo hi : ℚ)
    (hne : cards ≠ [])
    (hp : ∀ c ∈ cards, 0 ≤ c.probability)
    (hlo : ∀ c ∈ cards, lo ≤ c.fmv) (hhi : ∀ c ∈ cards, c.fmv ≤ hi) :
    scaledMass (probabilityScale cards) cards * lo
        ≤ (computeMetrics cards priceUsd).expectedValue ∧
    (computeMetrics cards priceUsd).expectedValue
        ≤ scaledMass (probabilityScale cards) cards * hi := by
  have hs : 0 ≤ probabilityScale cards := probabilityScale_nonneg hp
  constructor
  · rw [computeMetrics_expectedValue]
    have hrw : scaledMass (probabilityScale cards) cards * lo
        = (cards.map (fun c => c.probability * probabilityScale cards * lo)).sum := by
      rw [scaledMass, ← sum_map_mul_const]
    rw [hrw]
    refine List.sum_le_sum ?_
    intro c hc
    exact mul_le_mul_of_nonneg_left (hlo c hc) (mul_nonneg (hp c hc) hs)
  · rw [computeMetrics_expectedValue]
    have hrw : scaledMass (probabilityScale cards) cards * hi
        = (cards.map (fun c => c.probability * probabilityScale cards * hi)).sum := by
      rw [scaledMass, ← sum_map_mul_const]
    rw [hrw]
    refine List.sum_le_sum ?_
    intro c hc
    exact mul_le_mul_of_nonneg_left (hhi c hc) (mul_nonneg (hp c hc) hs)

/-- Witness for the amended C7 on the spec scenario: `W = 1`, bounds 1 and
100, expected value 23.5. -/
theorem C7_ev_bound_amended_witness :
    scaledMass (probabilityScale [⟨1, 1/2⟩, ⟨10, 3/10⟩, ⟨100, 1/5⟩])
        [⟨1, 1/2⟩, ⟨10, 3/10⟩, ⟨100, 1/5⟩] * 1
      ≤ (computeMetrics [⟨1, 1/2⟩, ⟨10, 3/10⟩, ⟨100, 1/5⟩] 5).expectedValue ∧
    (computeMetrics [⟨1, 1/2⟩, ⟨10, 3/10⟩, ⟨100, 1/5⟩] 5).expectedValue
      ≤ scaledMass (probabilityScale [⟨1, 1/2⟩, ⟨10, 3/10⟩, ⟨100, 1/5⟩])
          [⟨1, 1/2⟩, ⟨10, 3/10⟩, ⟨100, 1/5⟩] * 100 :=
  C7_ev_bound_amended _ 5 1 100 (by simp) (by norm_num [List.forall_mem_cons])
    (by norm_num [List.forall_mem_cons]) (by norm_num [List.forall_mem_cons])

/-- C9: in the mutable-array model, both `computeMetrics` and
`buildProfitCurve` leave the caller's array exactly as it was — the sort
mutates only the freshly allocated spread copy — and compute the same
results as the pure embeddings. -/
theorem C9_no_mutation (st : ArrayStore) (a : Nat) (priceUsd scale : ℚ)
    (ha : a < st.nextId) :
    readArr (computeMetricsStore st a priceUsd).2 a = readArr st a ∧
    readArr (buildProfitCurveStore st a priceUsd scale).2 a = readArr st a ∧
    (computeMetricsStore st a priceUsd).1 = computeMetrics (readArr st a) priceUsd ∧
    (buildProfitCurveStore st a priceUsd scale).1
      = buildProfitCurve (readArr st a) priceUsd scale := by
  have hne : a ≠ st.nextId := Nat.ne_of_lt ha
  refine ⟨?_, ?_, ?_, ?_⟩ <;>
    simp [computeMetricsStore, buildProfitCurveStore, spreadSortByFmv, alloc,
      sortAt, readArr, computeMetrics, buildProfitCurve, sortByFmv, sortInPlace,
      spreadCopy, hne]

/-- Witness for C9: a one-array store. -/
theorem C9_no_mutation_witness :
    readArr (computeMetricsStore
        ⟨fun j => if j = 0 then [⟨1, 1⟩] else [], 1⟩ 0 5).2 0
      = readArr ⟨fun j => if j = 0 then [⟨1, 1⟩] else [], 1⟩ 0 :=
  (C9_no_mutation ⟨fun j => if j = 0 then [⟨1, 1⟩] else [], 1⟩ 0 5 1
    (by norm_num)).1
